import Mathlib

/-!
Verification development for the KnowledgeFlow repository.

Shallow embedding of the unlock state machine, the quiz session machine,
the tree builder and the collapse / zoom view state, translated from
src/App.tsx, src/components/QuizModule.tsx, src/types.ts and the two
KnowledgeGraph components (src/unnamed/part_000 and src/unnamed/part_001).
-/

namespace KnowledgeFlow

/-- Node status, from src/types.ts. -/
inductive NodeStatus where
  | LOCKED
  | AVAILABLE
  | COMPLETED
deriving DecidableEq, Repr

/-- Node hierarchy role in the typed variant, from src/types.ts. -/
inductive NodeType where
  | root
  | branch
  | leaf
deriving DecidableEq, Repr

/-- KnowledgeNode, from src/types.ts (typed variant; the untyped variant
omits parentId and type, and the flat-sequence logic never reads them). -/
structure KnowledgeNode where
  id : String
  label : String := ""
  description : String := ""
  status : NodeStatus
  stars : Nat := 0
  parentId : Option String := none
  type : NodeType := NodeType.leaf
  level : Nat := 1
  dependencies : List String := []
deriving DecidableEq, Repr

/-- Replace the first element satisfying p by g applied to it.  This models
the JavaScript pattern of Array.prototype.find followed by an in-place
mutation of the found object (App.tsx lines 88-89); when no element
matches, the list is unchanged, exactly as the if-found guard behaves. -/
def modifyFirst (p : α → Bool) (g : α → α) : List α → List α
  | [] => []
  | x :: xs => if p x then g x :: xs else x :: modifyFirst p g xs

/-- Star rating from App.tsx lines 76 and 309:
Math.min(3, Math.ceil((correctCount / totalQuestions) * 3)).
For totalQuestions greater than zero the JavaScript expression is the exact
rational ceiling of 3 * correctCount / totalQuestions, written here with
natural-number ceiling division; the agreement with the rational ceiling is
proved in starsOf_eq_clamped_ceil below. -/
def starsOf (correctCount totalQuestions : Nat) : Nat :=
  min 3 ((3 * correctCount + totalQuestions - 1) / totalQuestions)

/-- Body of the map in both handleQuizFinish variants (App.tsx lines 81
and 314-319): the node with the active id is marked COMPLETED with the
given stars; every other node is returned unchanged. -/
def completeUpd (activeId : String) (stars : Nat) (n : KnowledgeNode) : KnowledgeNode :=
  if n.id == activeId then { n with status := NodeStatus.COMPLETED, stars := stars } else n

/-- Status mutation nextNode.status = NodeStatus.AVAILABLE (App.tsx
lines 89 and 325). -/
def makeAvailable (n : KnowledgeNode) : KnowledgeNode :=
  { n with status := NodeStatus.AVAILABLE }

/-- Node-list update performed by handleQuizFinish in the typed variant
(App.tsx lines 80-93): mark the node with the active id COMPLETED with the
given stars, then set the status of the leaf following the completed one in
the leaf subsequence of the list to AVAILABLE, unconditionally.  In Lean,
List.findIdx returns the length when no element matches, which makes the
guard fail exactly as the JavaScript index !== -1 check does. -/
def handleQuizFinishTyped (nodes : List KnowledgeNode) (activeId : String)
    (stars : Nat) : List KnowledgeNode :=
  let updated := nodes.map (completeUpd activeId stars)
  let leaves := updated.filter fun n => n.type == NodeType.leaf
  let currentIndex := leaves.findIdx fun n => n.id == activeId
  match leaves[currentIndex + 1]? with
  | some nx => modifyFirst (fun n => n.id == nx.id) makeAvailable updated
  | none => updated

/-- Node-list update performed by handleQuizFinish in the flat variant
(App.tsx lines 313-329): mark the node with the active id COMPLETED with
the given stars, then promote the node at the next position of the list,
if LOCKED, to AVAILABLE. -/
def handleQuizFinishFlat (nodes : List KnowledgeNode) (activeId : String)
    (stars : Nat) : List KnowledgeNode :=
  let updated := nodes.map (completeUpd activeId stars)
  let currentIndex := updated.findIdx fun n => n.id == activeId
  match updated[currentIndex + 1]? with
  | some nx =>
      if nx.status == NodeStatus.LOCKED then
        updated.set (currentIndex + 1) (makeAvailable nx)
      else updated
  | none => updated

/-- Level-completion check from App.tsx line 96.  It is computed over the
node list captured BEFORE the completion update (the stale nodes closure
variable), not over the updated list. -/
def allDone (nodes : List KnowledgeNode) (activeId : String) : Bool :=
  (nodes.filter fun n => n.type == NodeType.leaf).all fun n =>
    n.status == NodeStatus.COMPLETED || n.id == activeId

/-- QuizQuestion, from src/types.ts. -/
structure QuizQuestion where
  id : String := ""
  text : String := ""
  options : List String := []
  correctIndex : Nat
  explanation : String := ""
deriving DecidableEq, Repr

/-- Local component state of QuizModule (QuizModule.tsx lines 15-18). -/
structure QuizState where
  currentIdx : Nat
  selectedIdx : Option Nat
  showExplanation : Bool
  correctCount : Nat
deriving DecidableEq, Repr

/-- Initial state of a quiz session. -/
def initialQuizState : QuizState :=
  { currentIdx := 0, selectedIdx := none, showExplanation := false, correctCount := 0 }

/-- isCorrect (QuizModule.tsx line 21): selectedIdx === currentQuestion?.correctIndex.
A null selection or a missing question compares unequal, as === does. -/
def isCorrect (questions : List QuizQuestion) (s : QuizState) : Bool :=
  match s.selectedIdx, questions[s.currentIdx]? with
  | some sel, some q => sel == q.correctIndex
  | _, _ => false

/-- handleSelect (QuizModule.tsx lines 23-26). -/
def handleSelect (s : QuizState) (idx : Nat) : QuizState :=
  if s.showExplanation then s else { s with selectedIdx := some idx }

/-- handleConfirm (QuizModule.tsx lines 28-32): a null selection returns
early; otherwise the correct count is incremented when the selection is
correct and the explanation is shown. -/
def handleConfirm (questions : List QuizQuestion) (s : QuizState) : QuizState :=
  match s.selectedIdx with
  | none => s
  | some _ =>
      { s with
        correctCount := s.correctCount + (if isCorrect questions s then 1 else 0),
        showExplanation := true }

/-- handleNext (QuizModule.tsx lines 34-42); the second component is the
value passed to onFinish when the last question is advanced.  Natural
subtraction in questions.length - 1 agrees with the JavaScript expression
on nonempty lists, and on the empty list both guards fail. -/
def handleNext (questions : List QuizQuestion) (s : QuizState) :
    QuizState × Option Nat :=
  if s.currentIdx < questions.length - 1 then
    ({ currentIdx := s.currentIdx + 1, selectedIdx := none, showExplanation := false,
       correctCount := s.correctCount }, none)
  else
    (s, some (s.correctCount + (if isCorrect questions s then 1 else 0)))

/-- Run a quiz session: for each question in turn, one selection, one
confirm, one next click, until onFinish fires. -/
def runQuizFrom (questions : List QuizQuestion) : QuizState → List Nat → Option Nat
  | _, [] => none
  | s, sel :: rest =>
      let s1 := handleConfirm questions (handleSelect s sel)
      match handleNext questions s1 with
      | (s2, none) => runQuizFrom questions s2 rest
      | (_, some r) => some r

/-- Run a quiz session from the initial state. -/
def runQuiz (questions : List QuizQuestion) (selections : List Nat) : Option Nat :=
  runQuizFrom questions initialQuizState selections

/-- handleZoom (part_001 lines 113-115), in exact rational arithmetic:
setZoom(prev => Math.min(Math.max(prev + delta, 0.4), 1.8)). -/
def handleZoom (zoom delta : ℚ) : ℚ :=
  min (max (zoom + delta) 0.4) 1.8

/-- Zoom value installed by resetView (part_001 lines 117-122). -/
def resetViewZoom : ℚ := 1

/-- Clamp as worded by the spec: the value is moved to the nearest bound of
the range when outside it, else kept. -/
def zoomClampSpec (x lo hi : ℚ) : ℚ :=
  if x < lo then lo else if x > hi then hi else x

/-- Leaf node with the given id, status and stars, used by concrete
instances below. -/
def leafNode (i : String) (st : NodeStatus) (stars : Nat) : KnowledgeNode :=
  { id := i, status := st, stars := stars, type := NodeType.leaf }

/-- C10: setZoom adds the delta to the current zoom and clamps the result to
the nearest bound of [0.4, 1.8] (for every current zoom and every delta, so
in particular for zoom already inside the range); requests reaching 2.5 or
-1 clamp to 1.8 and 0.4 respectively, and resetView restores zoom 1.0. -/
theorem zoom_clamps_and_reset :
    (∀ z delta : ℚ, handleZoom z delta = zoomClampSpec (z + delta) 0.4 1.8) ∧
    resetViewZoom = 1 ∧
    handleZoom 1 1.5 = 1.8 ∧ handleZoom 0.5 (-1.5) = 0.4 := by
  refine ⟨?_, rfl, ?_, ?_⟩
  · intro z d
    unfold handleZoom zoomClampSpec
    split_ifs with h1 h2
    · rw [max_eq_right h1.le, min_eq_left]
      norm_num
    · rw [max_eq_left (le_of_not_lt h1), min_eq_right h2.le]
    · rw [max_eq_left (le_of_not_lt h1), min_eq_left (le_of_not_lt h2)]
  · unfold handleZoom
    rw [show (1 : ℚ) + 1.5 = 2.5 by norm_num, max_eq_left (by norm_num), min_eq_right]
    norm_num
  · unfold handleZoom
    rw [show (0.5 : ℚ) + -1.5 = -1 by norm_num, max_eq_right (by norm_num), min_eq_left]
    norm_num

/-- Single question quiz used for the C5 failing input. -/
def oneQuestion : List QuizQuestion :=
  [{ correctIndex := 0, options := ["opt0", "opt1", "opt2", "opt3"] }]

/-- C5 (code bug): on a one-question quiz whose only question is answered
correctly, handleConfirm already increments correctCount to 1, and
handleNext then passes correctCount + 1 = 2 to onFinish, exceeding the
number of questions; the intended count of correctly answered questions
is 1. -/
theorem quiz_finish_double_counts_last_correct :
    runQuiz oneQuestion [0] = some 2 ∧ oneQuestion.length = 1 ∧ 2 > 1 :=
  ⟨rfl, rfl, by decide⟩

/-- Node store for the C1 counterexample: node a already COMPLETED with one
star, node b LOCKED. -/
def exC1 : List KnowledgeNode :=
  [{ id := "a", status := NodeStatus.COMPLETED, stars := 1 },
   { id := "b", status := NodeStatus.LOCKED }]

/-- C1 counterexample: invoking the completion operation on the
already-COMPLETED node a does not fail and does not leave the store
unchanged: the stars of a are re-awarded (1 becomes 3) and unlocking
re-advances (b becomes AVAILABLE).  No InvalidStateError exists in the
code: handleQuizFinish performs no status check at all. -/
theorem completeNode_completed_changes_store :
    (exC1.map fun n => (n.id, n.status, n.stars)) =
      [("a", NodeStatus.COMPLETED, 1), ("b", NodeStatus.LOCKED, 0)] ∧
    ((handleQuizFinishFlat exC1 "a" 3).map fun n => (n.id, n.status, n.stars)) =
      [("a", NodeStatus.COMPLETED, 3), ("b", NodeStatus.AVAILABLE, 0)] :=
  ⟨rfl, rfl⟩

/-- Initial store for the C2 counterexample: three leaves, the first
AVAILABLE, the rest LOCKED. -/
def exC2s0 : List KnowledgeNode :=
  [leafNode "a" NodeStatus.AVAILABLE 0, leafNode "b" NodeStatus.LOCKED 0,
   leafNode "c" NodeStatus.LOCKED 0]

/-- State after completing leaf a with three stars. -/
def exC2s1 : List KnowledgeNode := handleQuizFinishTyped exC2s0 "a" 3

/-- State after then completing leaf b with three stars. -/
def exC2s2 : List KnowledgeNode := handleQuizFinishTyped exC2s1 "b" 3

/-- State after then re-completing leaf a with one star. -/
def exC2s3 : List KnowledgeNode := handleQuizFinishTyped exC2s2 "a" 1

/-- C2 counterexample: under the typed-leaf policy, the reachable sequence
complete a, complete b, re-complete a moves node b backward from COMPLETED
to AVAILABLE (the unlock step sets the next leaf AVAILABLE without checking
that it is LOCKED), and rewrites the stars of a (3 becomes 1) after they
were set at completion. -/
theorem typed_policy_demotes_completed_leaf :
    (exC2s2.map fun n => (n.id, n.status, n.stars)) =
      [("a", NodeStatus.COMPLETED, 3), ("b", NodeStatus.COMPLETED, 3),
       ("c", NodeStatus.AVAILABLE, 0)] ∧
    (exC2s3.map fun n => (n.id, n.status, n.stars)) =
      [("a", NodeStatus.COMPLETED, 1), ("b", NodeStatus.AVAILABLE, 3),
       ("c", NodeStatus.AVAILABLE, 0)] :=
  ⟨rfl, rfl⟩

theorem modifyFirst_length (p : α → Bool) (g : α → α) (l : List α) :
    (modifyFirst p g l).length = l.length := by
  induction l with
  | nil => rfl
  | cons x xs ih => by_cases h : p x <;> simp [modifyFirst, h, ih]

theorem modifyFirst_of_forall_false (p : α → Bool) (g : α → α) (l : List α)
    (h : ∀ x ∈ l, p x = false) : modifyFirst p g l = l := by
  induction l with
  | nil => rfl
  | cons x xs ih =>
      have hx := h x (List.mem_cons_self x xs)
      simp [modifyFirst, hx, ih fun y hy => h y (List.mem_cons_of_mem _ hy)]

theorem modifyFirst_eq_set (p : α → Bool) (g : α → α) (l : List α) (y : α)
    (hy : l[l.findIdx p]? = some y) :
    modifyFirst p g l = l.set (l.findIdx p) (g y) := by
  induction l generalizing y with
  | nil => simp at hy
  | cons x xs ih =>
      by_cases hx : p x
      · rw [List.findIdx_cons, hx, cond_true] at hy ⊢
        simp only [List.getElem?_cons_zero, Option.some.injEq] at hy
        subst hy
        simp [modifyFirst, hx]
      · rw [Bool.not_eq_true] at hx
        rw [List.findIdx_cons, hx, cond_false] at hy ⊢
        simp only [List.getElem?_cons_succ] at hy
        simp [modifyFirst, hx, List.set, ih y hy]

theorem modifyFirst_eq_self (p : α → Bool) (g : α → α) (l : List α)
    (h : l[l.findIdx p]? = none) : modifyFirst p g l = l := by
  refine modifyFirst_of_forall_false p g l ?_
  rw [List.getElem?_eq_none_iff] at h
  exact List.findIdx_eq_length.mp (Nat.le_antisymm (List.findIdx_le_length p) h)

theorem findIdx_map_congr (f : α → α) (p : α → Bool) (l : List α)
    (hf : ∀ a, p (f a) = p a) : (l.map f).findIdx p = l.findIdx p := by
  induction l with
  | nil => rfl
  | cons x xs ih => simp [List.findIdx_cons, hf, ih]

theorem key_ne_of_nodup (key : α → β) {l : List α} (hnd : (l.map key).Nodup)
    {j k : Nat} {a b : α} (hj : l[j]? = some a) (hk : l[k]? = some b)
    (hjk : j ≠ k) : key a ≠ key b := by
  intro he
  have hjl : j < l.length := by
    by_contra hc
    rw [List.getElem?_eq_none (Nat.le_of_not_lt hc)] at hj
    exact Option.noConfusion hj
  have hj2 : (l.map key)[j]? = some (key a) := by simp [hj]
  have hk2 : (l.map key)[k]? = some (key b) := by simp [hk]
  refine hjk (List.getElem?_inj (by simpa using hjl) hnd ?_)
  rw [hj2, hk2, he]

/-- Store for the C6 counterexample: three leaves all COMPLETED. -/
def exC6 : List KnowledgeNode :=
  [leafNode "a" NodeStatus.COMPLETED 3, leafNode "b" NodeStatus.COMPLETED 3,
   leafNode "c" NodeStatus.COMPLETED 3]

/-- C6 counterexample: re-completing leaf b when all three leaves are
COMPLETED emits the level-complete signal (allDone is computed over the
pre-update list), yet in the post-update state leaf c has been set
AVAILABLE, so not every leaf is COMPLETED after the update: the signal is
not equivalent to the post-update all-leaves-COMPLETED condition. -/
theorem level_signal_fires_without_post_all_completed :
    allDone exC6 "b" = true ∧
    ((handleQuizFinishTyped exC6 "b" 3).filter fun n => n.type == NodeType.leaf).all
        (fun n => n.status == NodeStatus.COMPLETED) = false :=
  ⟨rfl, rfl⟩


theorem completeUpd_id (activeId : String) (st : Nat) (n : KnowledgeNode) :
    (completeUpd activeId st n).id = n.id := by
  unfold completeUpd
  split <;> rfl

theorem completeUpd_type (activeId : String) (st : Nat) (n : KnowledgeNode) :
    (completeUpd activeId st n).type = n.type := by
  unfold completeUpd
  split <;> rfl

theorem completeUpd_of_id (activeId : String) (st : Nat) (n : KnowledgeNode)
    (h : n.id = activeId) :
    completeUpd activeId st n = { n with status := NodeStatus.COMPLETED, stars := st } := by
  simp [completeUpd, h]

theorem map_completeUpd_ids (ns : List KnowledgeNode) (aid : String) (st : Nat) :
    (ns.map (completeUpd aid st)).map (fun n => n.id) = ns.map (fun n => n.id) := by
  rw [List.map_map]
  exact List.map_congr_left fun n _ => completeUpd_id aid st n

theorem findIdx_map_completeUpd (ns : List KnowledgeNode) (aid : String) (st : Nat) :
    (ns.map (completeUpd aid st)).findIdx (fun n => n.id == aid) =
      ns.findIdx (fun n => n.id == aid) :=
  findIdx_map_congr _ _ _ fun n => by rw [completeUpd_id]

theorem target_getElem (ns : List KnowledgeNode) (aid : String) (st : Nat)
    (hmem : ∃ n ∈ ns, n.id = aid) :
    (((ns.map (completeUpd aid st))[ns.findIdx fun n => n.id == aid]?).map
      fun n => (n.status, n.stars)) = some (NodeStatus.COMPLETED, st) := by
  obtain ⟨n0, hn0, hid0⟩ := hmem
  have hlt : ns.findIdx (fun n => n.id == aid) < ns.length :=
    List.findIdx_lt_length.mpr ⟨n0, hn0, by simp [hid0]⟩
  obtain ⟨nt, hns⟩ : ∃ nt, ns[ns.findIdx fun n => n.id == aid]? = some nt :=
    ⟨_, List.getElem?_eq_getElem hlt⟩
  have hpi : nt.id = aid := by
    have h := List.findIdx_of_getElem?_eq_some hns
    simpa using h
  rw [List.getElem?_map, hns]
  simp [completeUpd_of_id _ _ _ hpi]

theorem handleQuizFinishFlat_target (ns : List KnowledgeNode) (aid : String) (st : Nat)
    (hmem : ∃ n ∈ ns, n.id = aid) :
    (((handleQuizFinishFlat ns aid st)[ns.findIdx fun n => n.id == aid]?).map
      fun n => (n.status, n.stars)) = some (NodeStatus.COMPLETED, st) := by
  have htarget := target_getElem ns aid st hmem
  simp only [handleQuizFinishFlat, findIdx_map_completeUpd]
  cases hx : (ns.map (completeUpd aid st))[ns.findIdx (fun n => n.id == aid) + 1]? with
  | none => exact htarget
  | some nx =>
      by_cases hl : nx.status == NodeStatus.LOCKED
      · simp only [hl, if_true]
        rw [List.getElem?_set_ne (by omega)]
        exact htarget
      · simp only [hl, if_false]
        exact htarget


theorem nodup_map_completeUpd (ns : List KnowledgeNode) (aid : String) (st : Nat)
    (hnd : (ns.map fun n => n.id).Nodup) :
    ((ns.map (completeUpd aid st)).map fun n => n.id).Nodup := by
  rw [map_completeUpd_ids]
  exact hnd

theorem handleQuizFinishTyped_target (ns : List KnowledgeNode) (aid : String) (st : Nat)
    (hnd : (ns.map fun n => n.id).Nodup) (hmem : ∃ n ∈ ns, n.id = aid) :
    (((handleQuizFinishTyped ns aid st)[ns.findIdx fun n => n.id == aid]?).map
      fun n => (n.status, n.stars)) = some (NodeStatus.COMPLETED, st) := by
  have htarget := target_getElem ns aid st hmem
  simp only [handleQuizFinishTyped]
  set updated := ns.map (completeUpd aid st) with hup
  set leaves := updated.filter (fun n => n.type == NodeType.leaf) with hle
  set k := leaves.findIdx (fun n => n.id == aid) with hk
  cases hx : leaves[k + 1]? with
  | none => exact htarget
  | some nx =>
      -- index and identity of the completed node inside updated
      obtain ⟨n0, hn0, hid0⟩ := hmem
      have hlt : ns.findIdx (fun n => n.id == aid) < ns.length :=
        List.findIdx_lt_length.mpr ⟨n0, hn0, by simp [hid0]⟩
      have hlt2 : ns.findIdx (fun n => n.id == aid) < updated.length := by
        rw [hup, List.length_map]
        exact hlt
      have hiu : updated.findIdx (fun n => n.id == aid) = ns.findIdx (fun n => n.id == aid) := by
        rw [hup]
        exact findIdx_map_completeUpd ns aid st
      obtain ⟨ut, hupd⟩ : ∃ ut, updated[ns.findIdx fun n => n.id == aid]? = some ut :=
        ⟨_, List.getElem?_eq_getElem hlt2⟩
      have htid : ut.id = aid := by
        have hw : updated[updated.findIdx fun n => n.id == aid]? = some ut := by
          rw [hiu]
          exact hupd
        have h := List.findIdx_of_getElem?_eq_some hw
        simpa using h
      -- nodup of ids
      have hndu : (updated.map fun n => n.id).Nodup := nodup_map_completeUpd ns aid st hnd
      have hndl : (leaves.map fun n => n.id).Nodup := by
        rw [hle]
        exact ((List.filter_sublist _).map _).nodup hndu
      -- position k holds the completed node
      have hk1 : k + 1 < leaves.length := by
        rw [List.getElem?_eq_some_iff] at hx
        exact hx.1
      have hkl : k < leaves.length := Nat.lt_of_succ_lt hk1
      obtain ⟨kt, hkm⟩ : ∃ kt, leaves[k]? = some kt := ⟨_, List.getElem?_eq_getElem hkl⟩
      have hkid : kt.id = aid := by
        have hw : leaves[leaves.findIdx fun n => n.id == aid]? = some kt := by
          rw [← hk]
          exact hkm
        have h := List.findIdx_of_getElem?_eq_some hw
        simpa using h
      have hnxid : nx.id ≠ aid := by
        have h := key_ne_of_nodup (fun n => n.id) hndl hx hkm (by omega)
        simp only at h
        rw [hkid] at h
        exact h
      -- the mutation of the found next node leaves index i untouched
      show (Option.map (fun n => (n.status, n.stars))
        (modifyFirst (fun n => n.id == nx.id) makeAvailable
          updated)[List.findIdx (fun n => n.id == aid) ns]?) = some (NodeStatus.COMPLETED, st)
      cases hfy : updated[updated.findIdx (fun n => n.id == nx.id)]? with
      | none =>
          rw [modifyFirst_eq_self _ _ _ hfy]
          exact htarget
      | some y =>
          rw [modifyFirst_eq_set _ _ _ y hfy]
          have hyid : y.id = nx.id := by
            have h := List.findIdx_of_getElem?_eq_some hfy
            simpa using h
          have hji : updated.findIdx (fun n => n.id == nx.id) ≠ ns.findIdx (fun n => n.id == aid) := by
            intro he
            rw [he, hupd] at hfy
            have hyu : y = ut := (Option.some.injEq _ _).mp hfy.symm
            rw [hyu, htid] at hyid
            exact hnxid hyid.symm
          rw [List.getElem?_set_ne hji]
          exact htarget


theorem starsOf_eq_clamped_ceil (c t : Nat) (ht : 0 < t) :
    (starsOf c t : ℤ) = max 0 (min 3 ⌈(3 * (c : ℚ)) / (t : ℚ)⌉) := by
  unfold starsOf
  set n : Nat := (3 * c + t - 1) / t with hn
  have hdm := Nat.div_add_mod (3 * c + t - 1) t
  have hml : (3 * c + t - 1) % t < t := Nat.mod_lt _ ht
  rw [← hn] at hdm
  have h1 : 3 * c ≤ t * n := by omega
  have h2 : t * n < 3 * c + t := by omega
  have htq : (0 : ℚ) < (t : ℚ) := by exact_mod_cast ht
  have hceil : ⌈(3 * (c : ℚ)) / (t : ℚ)⌉ = (n : ℤ) := by
    rw [Int.ceil_eq_iff]
    constructor
    · rw [lt_div_iff₀ htq]
      have h2q : (t : ℚ) * n < 3 * c + t := by exact_mod_cast h2
      push_cast
      nlinarith
    · rw [div_le_iff₀ htq]
      have h1q : (3 * (c : ℚ)) ≤ t * n := by exact_mod_cast h1
      push_cast
      linarith
  rw [hceil, Nat.cast_min, max_eq_right (le_min (by norm_num) (Int.natCast_nonneg n))]
  norm_num

theorem stars_cast_of_target (l : List KnowledgeNode) (j : Nat) (c t : Nat) (ht : 0 < t)
    (h : (l[j]?).map (fun n => (n.status, n.stars)) = some (NodeStatus.COMPLETED, starsOf c t)) :
    (l[j]?).map (fun n => ((n.stars : ℤ), n.status)) =
      some (max 0 (min 3 ⌈(3 * (c : ℚ)) / (t : ℚ)⌉), NodeStatus.COMPLETED) := by
  cases hg : l[j]? with
  | none => rw [hg] at h; simp at h
  | some m =>
      rw [hg] at h
      have h2 : (m.status, m.stars) = (NodeStatus.COMPLETED, starsOf c t) := by simpa using h
      have hs : m.status = NodeStatus.COMPLETED := congrArg Prod.fst h2
      have hst : m.stars = starsOf c t := congrArg Prod.snd h2
      simp [hs, hst, starsOf_eq_clamped_ceil c t ht]

/-- C1 (amended): the completion operation performs no status precondition:
for any store with unique ids containing the active id, regardless of the
prior status of the target node (LOCKED, AVAILABLE or COMPLETED), both
handleQuizFinish variants set the target status to COMPLETED and its stars
to the passed value; no InvalidStateError or failure path exists, so
completing an already-COMPLETED node re-awards stars and re-advances
unlocking instead of failing. -/
theorem completeNode_no_status_precondition (ns : List KnowledgeNode) (aid : String)
    (st : Nat) (hnd : (ns.map fun n => n.id).Nodup) (hmem : ∃ n ∈ ns, n.id = aid) :
    (((handleQuizFinishFlat ns aid st)[ns.findIdx fun n => n.id == aid]?).map
      fun n => (n.status, n.stars)) = some (NodeStatus.COMPLETED, st) ∧
    (((handleQuizFinishTyped ns aid st)[ns.findIdx fun n => n.id == aid]?).map
      fun n => (n.status, n.stars)) = some (NodeStatus.COMPLETED, st) :=
  ⟨handleQuizFinishFlat_target ns aid st hmem, handleQuizFinishTyped_target ns aid st hnd hmem⟩

/-- Witness for completeNode_no_status_precondition at a COMPLETED target. -/
theorem completeNode_no_status_precondition_witness :
    (((handleQuizFinishFlat exC1 "a" 3)[exC1.findIdx fun n => n.id == "a"]?).map
      fun n => (n.status, n.stars)) = some (NodeStatus.COMPLETED, 3) ∧
    (((handleQuizFinishTyped exC1 "a" 3)[exC1.findIdx fun n => n.id == "a"]?).map
      fun n => (n.status, n.stars)) = some (NodeStatus.COMPLETED, 3) :=
  completeNode_no_status_precondition exC1 "a" 3 (by decide) (by decide)

/-- C4: after completeNode(id, c, t) with c at most t and t positive, on an
existing node of a store with unique ids, the completed node has stars
equal to clamp(ceil(c / t * 3), 0, 3) (stated in ℤ against the exact
rational ceiling) and status COMPLETED, in both variants. -/
theorem completeNode_stars_clamped_ceil (ns : List KnowledgeNode) (aid : String)
    (c t : Nat) (hnd : (ns.map fun n => n.id).Nodup) (hmem : ∃ n ∈ ns, n.id = aid)
    (hct : c ≤ t) (ht : 0 < t) :
    (((handleQuizFinishFlat ns aid (starsOf c t))[ns.findIdx fun n => n.id == aid]?).map
      fun n => ((n.stars : ℤ), n.status)) =
      some (max 0 (min 3 ⌈(3 * (c : ℚ)) / (t : ℚ)⌉), NodeStatus.COMPLETED) ∧
    (((handleQuizFinishTyped ns aid (starsOf c t))[ns.findIdx fun n => n.id == aid]?).map
      fun n => ((n.stars : ℤ), n.status)) =
      some (max 0 (min 3 ⌈(3 * (c : ℚ)) / (t : ℚ)⌉), NodeStatus.COMPLETED) :=
  ⟨stars_cast_of_target _ _ c t ht (handleQuizFinishFlat_target ns aid (starsOf c t) hmem),
   stars_cast_of_target _ _ c t ht (handleQuizFinishTyped_target ns aid (starsOf c t) hnd hmem)⟩

/-- Witness for completeNode_stars_clamped_ceil with 3 of 4 questions
correct on node a of the two-node store. -/
theorem completeNode_stars_clamped_ceil_witness :
    (((handleQuizFinishFlat exC1 "a" (starsOf 3 4))[exC1.findIdx fun n => n.id == "a"]?).map
      fun n => ((n.stars : ℤ), n.status)) =
      some (max 0 (min 3 ⌈(3 * ((3 : Nat) : ℚ)) / (((4 : Nat)) : ℚ)⌉), NodeStatus.COMPLETED) ∧
    (((handleQuizFinishTyped exC1 "a" (starsOf 3 4))[exC1.findIdx fun n => n.id == "a"]?).map
      fun n => ((n.stars : ℤ), n.status)) =
      some (max 0 (min 3 ⌈(3 * ((3 : Nat) : ℚ)) / (((4 : Nat)) : ℚ)⌉), NodeStatus.COMPLETED) :=
  completeNode_stars_clamped_ceil exC1 "a" 3 4 (by decide) (by decide) (by decide) (by decide)


theorem completeUpd_of_ne (activeId : String) (st : Nat) (n : KnowledgeNode)
    (h : ¬ n.id = activeId) : completeUpd activeId st n = n := by
  simp [completeUpd, h]

theorem map_completeUpd_getElem_ne (ns : List KnowledgeNode) (aid : String) (st : Nat)
    (hnd : (ns.map fun n => n.id).Nodup) (j : Nat)
    (hj : j ≠ ns.findIdx fun n => n.id == aid) :
    (ns.map (completeUpd aid st))[j]? = ns[j]? := by
  cases hm : ns[j]? with
  | none =>
      rw [List.getElem?_eq_none_iff] at hm ⊢
      rw [List.length_map]
      exact hm
  | some m =>
      rw [List.getElem?_map, hm]
      have hmne : ¬ m.id = aid := by
        by_cases haid : ∃ n ∈ ns, n.id = aid
        · obtain ⟨n0, hn0, hid0⟩ := haid
          have hlt : ns.findIdx (fun n => n.id == aid) < ns.length :=
            List.findIdx_lt_length.mpr ⟨n0, hn0, by simp [hid0]⟩
          obtain ⟨nt, hns⟩ : ∃ nt, ns[ns.findIdx fun n => n.id == aid]? = some nt :=
            ⟨_, List.getElem?_eq_getElem hlt⟩
          have hpi : nt.id = aid := by
            have h := List.findIdx_of_getElem?_eq_some hns
            simpa using h
          have h := key_ne_of_nodup (fun n => n.id) hnd hm hns hj
          simp only at h
          rw [hpi] at h
          exact h
        · push_neg at haid
          exact haid m (List.getElem?_mem hm)
      simp [completeUpd_of_ne aid st m hmne]

theorem length_handleQuizFinishFlat (ns : List KnowledgeNode) (aid : String) (st : Nat) :
    (handleQuizFinishFlat ns aid st).length = ns.length := by
  simp only [handleQuizFinishFlat]
  cases hx : (ns.map (completeUpd aid st))[(ns.map (completeUpd aid st)).findIdx
      (fun n => n.id == aid) + 1]? with
  | none => simp
  | some nx =>
      by_cases hl : nx.status == NodeStatus.LOCKED
      · simp [hl]
      · simp [hl]

/-- C7: under the flat-sequence policy, completing an existing node of a
store with unique ids turns the node at the next position AVAILABLE exactly
when it is currently LOCKED (otherwise its status is unchanged), and the
status of every node other than the completed one and that immediate
successor is unchanged. -/
theorem flat_unlock_next_only (ns : List KnowledgeNode) (aid : String) (st : Nat)
    (hnd : (ns.map fun n => n.id).Nodup) (hmem : ∃ n ∈ ns, n.id = aid) :
    (((handleQuizFinishFlat ns aid st)[(ns.findIdx fun n => n.id == aid) + 1]?).map
        fun n => n.status) =
      ((ns[(ns.findIdx fun n => n.id == aid) + 1]?).map fun n =>
        if n.status = NodeStatus.LOCKED then NodeStatus.AVAILABLE else n.status) ∧
    ∀ j, j ≠ (ns.findIdx fun n => n.id == aid) →
      j ≠ (ns.findIdx fun n => n.id == aid) + 1 →
      (((handleQuizFinishFlat ns aid st)[j]?).map fun n => n.status) =
        ((ns[j]?).map fun n => n.status) := by
  have hnext := map_completeUpd_getElem_ne ns aid st hnd
    ((ns.findIdx fun n => n.id == aid) + 1) (by omega)
  simp only [handleQuizFinishFlat, findIdx_map_completeUpd]
  cases hx : (ns.map (completeUpd aid st))[(ns.findIdx fun n => n.id == aid) + 1]? with
  | none =>
      constructor
      · rw [hx, ← hnext, hx]
        rfl
      · intro j hji hjs
        rw [map_completeUpd_getElem_ne ns aid st hnd j hji]
  | some nx =>
      have hnso : ns[(ns.findIdx fun n => n.id == aid) + 1]? = some nx := by
        rw [← hnext, hx]
      by_cases hl : nx.status == NodeStatus.LOCKED
      · simp only [hl, if_true]
        constructor
        · have hblt : (ns.findIdx fun n => n.id == aid) + 1 <
              (ns.map (completeUpd aid st)).length := by
            rw [List.getElem?_eq_some_iff] at hx
            exact hx.1
          rw [List.getElem?_set_self hblt, hnso]
          have hls : nx.status = NodeStatus.LOCKED := by simpa using hl
          simp [makeAvailable, hls]
        · intro j hji hjs
          rw [List.getElem?_set_ne (by omega)]
          rw [map_completeUpd_getElem_ne ns aid st hnd j hji]
      · simp only [hl, Bool.false_eq_true, if_false]
        have hls : ¬ nx.status = NodeStatus.LOCKED := by simpa using hl
        constructor
        · rw [hx, hnso]
          simp [hls]
        · intro j hji hjs
          rw [map_completeUpd_getElem_ne ns aid st hnd j hji]

/-- Store for the C7 witness: the spec example, three leaves a, b, c with b
and c LOCKED. -/
def exC7 : List KnowledgeNode :=
  [leafNode "a" NodeStatus.AVAILABLE 0, leafNode "b" NodeStatus.LOCKED 0,
   leafNode "c" NodeStatus.LOCKED 0]

/-- Witness for flat_unlock_next_only on the spec example: completing a
makes b AVAILABLE while c stays LOCKED. -/
theorem flat_unlock_next_only_witness :
    (((handleQuizFinishFlat exC7 "a" 3)[(exC7.findIdx fun n => n.id == "a") + 1]?).map
        fun n => n.status) =
      ((exC7[(exC7.findIdx fun n => n.id == "a") + 1]?).map fun n =>
        if n.status = NodeStatus.LOCKED then NodeStatus.AVAILABLE else n.status) ∧
    (((handleQuizFinishFlat exC7 "a" 3)[2]?).map fun n => n.status) =
      ((exC7[2]?).map fun n => n.status) :=
  ⟨(flat_unlock_next_only exC7 "a" 3 (by decide) (by decide)).1,
   (flat_unlock_next_only exC7 "a" 3 (by decide) (by decide)).2 2 (by decide) (by decide)⟩


/-- Numeric rank of a status along the progression LOCKED, AVAILABLE,
COMPLETED. -/
def statusRank : NodeStatus → Nat
  | NodeStatus.LOCKED => 0
  | NodeStatus.AVAILABLE => 1
  | NodeStatus.COMPLETED => 2

/-- Fold of flat-variant completions over a list of (activeId, stars)
operations. -/
def flatRun (ns : List KnowledgeNode) (ops : List (String × Nat)) : List KnowledgeNode :=
  ops.foldl (fun s op => handleQuizFinishFlat s op.1 op.2) ns

theorem statusRank_completeUpd (aid : String) (st : Nat) (n : KnowledgeNode) :
    statusRank n.status ≤ statusRank (completeUpd aid st n).status := by
  unfold completeUpd
  split
  · cases n.status <;> simp [statusRank]
  · exact le_refl _

theorem flat_step_mono (ns : List KnowledgeNode) (aid : String) (st : Nat)
    (j : Nat) (m m' : KnowledgeNode) (hm : ns[j]? = some m)
    (hm' : (handleQuizFinishFlat ns aid st)[j]? = some m') :
    statusRank m.status ≤ statusRank m'.status := by
  have hup : (ns.map (completeUpd aid st))[j]? = some (completeUpd aid st m) := by
    rw [List.getElem?_map, hm]
    rfl
  simp only [handleQuizFinishFlat] at hm'
  cases hx : (ns.map (completeUpd aid st))[(ns.map (completeUpd aid st)).findIdx
      (fun n => n.id == aid) + 1]? with
  | none =>
      rw [hx] at hm'
      rw [hup] at hm'
      cases hm'
      exact statusRank_completeUpd aid st m
  | some nx =>
      rw [hx] at hm'
      by_cases hl : nx.status == NodeStatus.LOCKED
      · simp only [hl, if_true] at hm'
        by_cases hj : j = (ns.map (completeUpd aid st)).findIdx (fun n => n.id == aid) + 1
        · subst hj
          have hblt : (ns.map (completeUpd aid st)).findIdx (fun n => n.id == aid) + 1 <
              (ns.map (completeUpd aid st)).length := by
            rw [List.getElem?_eq_some_iff] at hx
            exact hx.1
          rw [List.getElem?_set_self hblt] at hm'
          have hnx : completeUpd aid st m = nx := by
            rw [hup] at hx
            exact (Option.some.injEq _ _).mp hx
          cases hm'
          have hlk : nx.status = NodeStatus.LOCKED := by simpa using hl
          have hmlk : m.status = NodeStatus.LOCKED := by
            by_cases hcm : m.id = aid
            · exfalso
              have : (completeUpd aid st m).status = NodeStatus.COMPLETED := by
                rw [completeUpd_of_id aid st m hcm]
              rw [hnx, hlk] at this
              exact NodeStatus.noConfusion this
            · rw [completeUpd_of_ne aid st m hcm] at hnx
              rw [← hnx] at hlk
              exact hlk
          rw [hmlk]
          simp [makeAvailable, statusRank]
        · rw [List.getElem?_set_ne (by omega)] at hm'
          rw [hup] at hm'
          cases hm'
          exact statusRank_completeUpd aid st m
      · simp only [hl, Bool.false_eq_true, if_false] at hm'
        rw [hup] at hm'
        cases hm'
        exact statusRank_completeUpd aid st m

/-- C2 (amended): under the flat-sequence policy the status of every node
never moves backward along LOCKED, AVAILABLE, COMPLETED across any sequence
of completion operations: completion only raises the target to COMPLETED
and the unlock step only promotes a LOCKED node to AVAILABLE.  The
typed-leaf policy violates the original claim (see the counterexample: its
unconditional unlock can demote a COMPLETED leaf to AVAILABLE), and stars
are rewritten whenever a node is completed again, so the stars-set-once
clause holds only for nodes completed at most once. -/
theorem flat_policy_status_monotone (ops : List (String × Nat)) (ns : List KnowledgeNode)
    (j : Nat) (m m' : KnowledgeNode) (hm : ns[j]? = some m)
    (hm' : (flatRun ns ops)[j]? = some m') :
    statusRank m.status ≤ statusRank m'.status := by
  induction ops generalizing ns m with
  | nil =>
      simp only [flatRun, List.foldl_nil] at hm'
      rw [hm] at hm'
      cases hm'
      exact le_refl _
  | cons op rest ih =>
      have hlen : j < (handleQuizFinishFlat ns op.1 op.2).length := by
        rw [length_handleQuizFinishFlat]
        rw [List.getElem?_eq_some_iff] at hm
        exact hm.1
      obtain ⟨mid, hmid⟩ : ∃ mid, (handleQuizFinishFlat ns op.1 op.2)[j]? = some mid :=
        ⟨_, List.getElem?_eq_getElem hlen⟩
      have h1 := flat_step_mono ns op.1 op.2 j m _ hm hmid
      have h2 := ih (handleQuizFinishFlat ns op.1 op.2) _ hmid
        (by simpa [flatRun, List.foldl_cons] using hm')
      exact le_trans h1 h2

/-- Witness for flat_policy_status_monotone: node b of the three-leaf store
moves from LOCKED to AVAILABLE when a is completed. -/
theorem flat_policy_status_monotone_witness :
    statusRank (leafNode "b" NodeStatus.LOCKED 0).status ≤
      statusRank (makeAvailable (leafNode "b" NodeStatus.LOCKED 0)).status :=
  flat_policy_status_monotone [("a", 3)] exC7 1 _ _ (by rfl) (by rfl)


theorem filter_modifyFirst (q : α → Bool) (g : α → α) (p : α → Bool) (l : List α)
    (hg : ∀ a, p (g a) = p a) (hq : ∀ a ∈ l, q a = true → p a = true) :
    (modifyFirst q g l).filter p = modifyFirst q g (l.filter p) := by
  induction l with
  | nil => rfl
  | cons x xs ih =>
      have ihx := ih fun a ha => hq a (List.mem_cons_of_mem _ ha)
      by_cases hx : q x
      · have hpx : p x = true := hq x (List.mem_cons_self x xs) hx
        simp [modifyFirst, hx, List.filter_cons, hg x, hpx]
      · by_cases hpx : p x
        · simp [modifyFirst, hx, List.filter_cons, hpx, ihx]
        · simp [modifyFirst, hx, List.filter_cons, hpx, ihx]

theorem findIdx_id_of_nodup (l : List KnowledgeNode)
    (hnd : (l.map fun n => n.id).Nodup) (k : Nat) (nk : KnowledgeNode)
    (hk : l[k]? = some nk) : l.findIdx (fun n => n.id == nk.id) = k := by
  induction l generalizing k with
  | nil => simp at hk
  | cons x xs ih =>
      rw [List.map_cons, List.nodup_cons] at hnd
      cases k with
      | zero =>
          rw [List.getElem?_cons_zero] at hk
          cases hk
          simp [List.findIdx_cons]
      | succ k =>
          rw [List.getElem?_cons_succ] at hk
          have hmem : nk.id ∈ xs.map (fun n => n.id) :=
            List.mem_map.mpr ⟨nk, List.getElem?_mem hk, rfl⟩
          have hxf : (x.id == nk.id) = false := by
            rw [beq_eq_false_iff_ne]
            intro he
            rw [he] at hnd
            exact hnd.1 hmem
          rw [List.findIdx_cons, hxf, cond_false, ih hnd.2 k hk]

theorem findIdx_false_of_lt (p : α → Bool) (l : List α) (j : Nat) (y : α)
    (hy : l[j]? = some y) (hj : j < l.findIdx p) : p y = false := by
  induction l generalizing j with
  | nil => simp at hy
  | cons x xs ih =>
      rw [List.findIdx_cons] at hj
      by_cases hx : p x
      · rw [hx, cond_true] at hj
        omega
      · rw [Bool.not_eq_true] at hx
        rw [hx, cond_false] at hj
        cases j with
        | zero =>
            rw [List.getElem?_cons_zero] at hy
            cases hy
            exact hx
        | succ j =>
            rw [List.getElem?_cons_succ] at hy
            exact ih j hy (by omega)

theorem typed_leaves_eq_set (ns : List KnowledgeNode) (st : Nat)
    (hnd : (ns.map fun n => n.id).Nodup) (k : Nat) (nk m : KnowledgeNode)
    (hk : (ns.filter fun n => n.type == NodeType.leaf)[k]? = some nk)
    (hk1 : (ns.filter fun n => n.type == NodeType.leaf)[k + 1]? = some m) :
    (handleQuizFinishTyped ns nk.id st).filter (fun n => n.type == NodeType.leaf) =
      ((ns.filter fun n => n.type == NodeType.leaf).map (completeUpd nk.id st)).set (k + 1)
        (makeAvailable m) := by
  have hcomp : ((fun n => n.type == NodeType.leaf) ∘ completeUpd nk.id st) =
      fun n => n.type == NodeType.leaf := by
    funext n
    simp only [Function.comp_apply, completeUpd_type]
  have hfm : (ns.map (completeUpd nk.id st)).filter (fun n => n.type == NodeType.leaf) =
      (ns.filter fun n => n.type == NodeType.leaf).map (completeUpd nk.id st) := by
    rw [List.filter_map, hcomp]
  have hndl : ((ns.filter fun n => n.type == NodeType.leaf).map fun n => n.id).Nodup :=
    ((List.filter_sublist _).map _).nodup hnd
  have hmne : m.id ≠ nk.id := by
    have h := key_ne_of_nodup (fun n => n.id) hndl hk1 hk (by omega)
    simpa using h
  have hum : completeUpd nk.id st m = m := completeUpd_of_ne _ _ _ hmne
  have hup1 : ((ns.filter fun n => n.type == NodeType.leaf).map
      (completeUpd nk.id st))[k + 1]? = some m := by
    rw [List.getElem?_map, hk1]
    simp [hum]
  have hndu : ((ns.map (completeUpd nk.id st)).map fun n => n.id).Nodup :=
    nodup_map_completeUpd ns nk.id st hnd
  have hfind : ((ns.map (completeUpd nk.id st)).filter
      (fun n => n.type == NodeType.leaf)).findIdx (fun n => n.id == nk.id) = k := by
    rw [hfm, findIdx_map_congr _ _ _ (fun a => by rw [completeUpd_id])]
    exact findIdx_id_of_nodup _ hndl k nk hk
  have hscrut : ((ns.map (completeUpd nk.id st)).filter
      (fun n => n.type == NodeType.leaf))[((ns.map (completeUpd nk.id st)).filter
      (fun n => n.type == NodeType.leaf)).findIdx (fun n => n.id == nk.id) + 1]? = some m := by
    rw [hfind, hfm]
    exact hup1
  simp only [handleQuizFinishTyped]
  rw [hscrut]
  show (modifyFirst (fun n => n.id == m.id) makeAvailable
      (ns.map (completeUpd nk.id st))).filter (fun n => n.type == NodeType.leaf) = _
  have hmmem : m ∈ (ns.map (completeUpd nk.id st)).filter (fun n => n.type == NodeType.leaf) := by
    rw [hfm]
    exact List.getElem?_mem hup1
  have hmU : m ∈ ns.map (completeUpd nk.id st) := (List.mem_filter.mp hmmem).1
  have hmleaf : (m.type == NodeType.leaf) = true := (List.mem_filter.mp hmmem).2
  rw [filter_modifyFirst (fun n => n.id == m.id) makeAvailable
    (fun n => n.type == NodeType.leaf) (ns.map (completeUpd nk.id st)) (fun a => rfl) ?hq]
  case hq =>
    intro a ha hqa
    have haid : a.id = m.id := by simpa using hqa
    have ham : a = m := List.inj_on_of_nodup_map hndu ha hmU haid
    rw [ham]
    exact hmleaf
  rw [hfm]
  have hfq : ((ns.filter fun n => n.type == NodeType.leaf).map
      (completeUpd nk.id st)).findIdx (fun n => n.id == m.id) = k + 1 := by
    rw [findIdx_map_congr _ _ _ (fun a => by rw [completeUpd_id])]
    exact findIdx_id_of_nodup _ hndl (k + 1) m hk1
  have hfq2 : ((ns.filter fun n => n.type == NodeType.leaf).map
      (completeUpd nk.id st))[((ns.filter fun n => n.type == NodeType.leaf).map
      (completeUpd nk.id st)).findIdx (fun n => n.id == m.id)]? = some m := by
    rw [hfq]
    exact hup1
  rw [modifyFirst_eq_set _ _ _ m hfq2, hfq]

/-- C3: under the typed-leaf policy, completing the leaf at position k of
the ordered leaf subsequence of a store with unique ids makes the leaf at
position k + 1 transition LOCKED to AVAILABLE exactly when it was LOCKED
before the operation, and every leaf strictly before position k is
unchanged. -/
theorem typed_next_leaf_unlock_iff_locked (ns : List KnowledgeNode) (aid : String)
    (st : Nat) (hnd : (ns.map fun n => n.id).Nodup) (k : Nat) (nk m : KnowledgeNode)
    (hk : (ns.filter fun n => n.type == NodeType.leaf)[k]? = some nk)
    (hkid : nk.id = aid)
    (hk1 : (ns.filter fun n => n.type == NodeType.leaf)[k + 1]? = some m) :
    (m.status = NodeStatus.LOCKED ↔
      (m.status = NodeStatus.LOCKED ∧
        (((handleQuizFinishTyped ns aid st).filter fun n => n.type == NodeType.leaf)[k + 1]?).map
          (fun n => n.status) = some NodeStatus.AVAILABLE)) ∧
    ∀ j, j < k →
      ((handleQuizFinishTyped ns aid st).filter fun n => n.type == NodeType.leaf)[j]? =
        (ns.filter fun n => n.type == NodeType.leaf)[j]? := by
  subst hkid
  have hset := typed_leaves_eq_set ns st hnd k nk m hk hk1
  have hndl : ((ns.filter fun n => n.type == NodeType.leaf).map fun n => n.id).Nodup :=
    ((List.filter_sublist _).map _).nodup hnd
  have hklt1 : k + 1 < (ns.filter fun n => n.type == NodeType.leaf).length := by
    rw [List.getElem?_eq_some_iff] at hk1
    exact hk1.1
  constructor
  · have havail : (((handleQuizFinishTyped ns nk.id st).filter
        fun n => n.type == NodeType.leaf)[k + 1]?).map (fun n => n.status) =
        some NodeStatus.AVAILABLE := by
      rw [hset, List.getElem?_set_self (by rw [List.length_map]; exact hklt1)]
      rfl
    exact ⟨fun h => ⟨h, havail⟩, fun h => h.1⟩
  · intro j hj
    rw [hset, List.getElem?_set_ne (by omega)]
    cases hyj : (ns.filter fun n => n.type == NodeType.leaf)[j]? with
    | none =>
        rw [List.getElem?_map, hyj]
        rfl
    | some y =>
        rw [List.getElem?_map, hyj]
        have hfk : (ns.filter fun n => n.type == NodeType.leaf).findIdx
            (fun n => n.id == nk.id) = k := findIdx_id_of_nodup _ hndl k nk hk
        have hpf : (y.id == nk.id) = false :=
          findIdx_false_of_lt _ _ j y hyj (by rw [hfk]; exact hj)
        have hyne : ¬ y.id = nk.id := by simpa using hpf
        simp [completeUpd_of_ne _ _ _ hyne]

/-- Witness for typed_next_leaf_unlock_iff_locked: completing leaf a of the
three-leaf store unlocks leaf b, which was LOCKED. -/
theorem typed_next_leaf_unlock_iff_locked_witness :
    ((leafNode "b" NodeStatus.LOCKED 0).status = NodeStatus.LOCKED ↔
      ((leafNode "b" NodeStatus.LOCKED 0).status = NodeStatus.LOCKED ∧
        (((handleQuizFinishTyped exC2s0 "a" 3).filter
            fun n => n.type == NodeType.leaf)[0 + 1]?).map (fun n => n.status) =
          some NodeStatus.AVAILABLE)) ∧
    ∀ j, j < 0 →
      ((handleQuizFinishTyped exC2s0 "a" 3).filter fun n => n.type == NodeType.leaf)[j]? =
        (exC2s0.filter fun n => n.type == NodeType.leaf)[j]? :=
  typed_next_leaf_unlock_iff_locked exC2s0 "a" 3 (by decide) 0
    (leafNode "a" NodeStatus.AVAILABLE 0) (leafNode "b" NodeStatus.LOCKED 0)
    (by rfl) (by rfl) (by rfl)


/-- C6 (amended): the level-complete signal is computed from the store
captured before the update: it fires iff every leaf other than the node
being completed is already COMPLETED in the pre-update store.  For the
canonical three-leaf run (leaf a AVAILABLE, leaves b and c LOCKED,
completed in order a, b, c) the signal is emitted exactly once, at the
third completion. -/
theorem level_signal_pre_update_semantics :
    (∀ (ns : List KnowledgeNode) (aid : String),
      allDone ns aid = true ↔
        ∀ n ∈ ns, n.type = NodeType.leaf → n.id ≠ aid → n.status = NodeStatus.COMPLETED) ∧
    allDone exC2s0 "a" = false ∧ allDone exC2s1 "b" = false ∧ allDone exC2s2 "c" = true := by
  refine ⟨?_, rfl, rfl, rfl⟩
  intro ns aid
  unfold allDone
  rw [List.all_eq_true]
  constructor
  · intro h n hn htype hne
    have h2 := h n (List.mem_filter.mpr ⟨hn, by simp [htype]⟩)
    simp only [Bool.or_eq_true, beq_iff_eq] at h2
    rcases h2 with h1 | h2
    · exact h1
    · exact absurd h2 hne
  · intro h n hn
    have hpair := List.mem_filter.mp hn
    have htype : n.type = NodeType.leaf := by simpa using hpair.2
    by_cases hne : n.id = aid
    · simp [hne]
    · simp [h n hpair.1 htype hne]

/-- Witness for the general conjunct of level_signal_pre_update_semantics
at the all-COMPLETED three-leaf store. -/
theorem level_signal_pre_update_semantics_witness :
    allDone exC6 "b" = true ↔
      ∀ n ∈ exC6, n.type = NodeType.leaf → n.id ≠ "b" → n.status = NodeStatus.COMPLETED :=
  level_signal_pre_update_semantics.1 exC6 "b"


/-- Lookup after a key-preserving value map. -/
theorem lookup_map_keyed {α V : Type _} [BEq α] [LawfulBEq α]
    (g : α → V → V) (m : List (α × V)) (k : α) :
    (m.map fun e => (e.1, g e.1 e.2)).lookup k = (m.lookup k).map (g k) := by
  induction m with
  | nil => rfl
  | cons e es ih =>
      obtain ⟨ek, ev⟩ := e
      rw [List.map_cons, List.lookup_cons, List.lookup_cons]
      cases hke : (k == ek) with
      | true =>
          have hk : k = ek := by simpa using hke
          subst hk
          rfl
      | false => exact ih

/-- Lookup distributes over append, preferring the left list. -/
theorem lookup_append_keyed {α V : Type _} [BEq α] (m l : List (α × V)) (k : α) :
    (m ++ l).lookup k = if (m.lookup k).isSome then m.lookup k else l.lookup k := by
  induction m with
  | nil => simp
  | cons e es ih =>
      obtain ⟨ek, ev⟩ := e
      rw [List.cons_append, List.lookup_cons, List.lookup_cons]
      cases hke : (k == ek) with
      | true => rfl
      | false => exact ih

/-- One keyed-map assignment map[n.id] = { node: n, children: [] } of the
Tree Builder first pass (part_000 lines 16-19): replace the value of the
entry holding the key when present (JavaScript object keys keep their
position on replacement), else append a new entry at the end. -/
def setEntry (m : List (String × KnowledgeNode × List String)) (n : KnowledgeNode) :
    List (String × KnowledgeNode × List String) :=
  if (m.lookup n.id).isSome then
    m.map fun e => (e.1, if e.1 == n.id then (n, ([] : List String)) else e.2)
  else m ++ [(n.id, n, [])]

/-- One push map[n.parentId].children.push(n.id) of the Tree Builder second
pass (part_000 lines 20-24): append the child id to the entry holding the
parent key. -/
def pushChild (m : List (String × KnowledgeNode × List String)) (p : String)
    (c : String) : List (String × KnowledgeNode × List String) :=
  m.map fun e => (e.1, if e.1 == p then (e.2.1, e.2.2 ++ [c]) else e.2)

/-- One step of the Tree Builder second pass (part_000 lines 20-24): a
node with a parentId whose key exists pushes its own id onto that entry;
any other node leaves the map unchanged. -/
def pass2Step (m : List (String × KnowledgeNode × List String))
    (n : KnowledgeNode) : List (String × KnowledgeNode × List String) :=
  match n.parentId with
  | some p => if (m.lookup p).isSome then pushChild m p n.id else m
  | none => m

/-- Keyed map built by the two forEach passes of the Tree Builder
(part_000 lines 15-24). -/
def buildEntries (nodes : List KnowledgeNode) :
    List (String × KnowledgeNode × List String) :=
  let m1 := nodes.foldl (fun m n => setEntry m n) []
  nodes.foldl pass2Step m1

/-- Root list of the Tree Builder (part_000 line 25):
nodes.filter(n => !n.parentId || !map[n.parentId]). -/
def treeRoots (nodes : List KnowledgeNode) : List KnowledgeNode :=
  nodes.filter fun n =>
    match n.parentId with
    | none => true
    | some p => ((buildEntries nodes).lookup p).isNone

/-- Root list as worded by the spec: a node is a root iff it has no
parentId, or its parentId does not match any id present in the input
list. -/
def specRoots (nodes : List KnowledgeNode) : List KnowledgeNode :=
  nodes.filter fun n =>
    match n.parentId with
    | none => true
    | some p => !((nodes.map fun x => x.id).contains p)

theorem lookup_pushChild (m : List (String × KnowledgeNode × List String))
    (p c k : String) :
    (pushChild m p c).lookup k =
      (m.lookup k).map (fun v => if k == p then (v.1, v.2 ++ [c]) else v) :=
  lookup_map_keyed (fun k v => if k == p then (v.1, v.2 ++ [c]) else v) m k

theorem lookup_setEntry_self (m : List (String × KnowledgeNode × List String))
    (n : KnowledgeNode) : (setEntry m n).lookup n.id = some (n, []) := by
  unfold setEntry
  split
  · next hs =>
      rw [lookup_map_keyed (fun k v => if k == n.id then (n, ([] : List String)) else v) m n.id]
      cases hm : m.lookup n.id with
      | none => rw [hm] at hs; simp at hs
      | some v => simp
  · next hs =>
      rw [lookup_append_keyed]
      rw [Bool.not_eq_true] at hs
      rw [hs, if_neg (by simp)]
      simp [List.lookup_cons]

theorem lookup_setEntry_ne (m : List (String × KnowledgeNode × List String))
    (n : KnowledgeNode) (k : String) (hk : ¬ k = n.id) :
    (setEntry m n).lookup k = m.lookup k := by
  have hkf : (k == n.id) = false := by simpa using hk
  unfold setEntry
  split
  · rw [lookup_map_keyed (fun k v => if k == n.id then (n, ([] : List String)) else v) m k]
    cases hm : m.lookup k with
    | none => rfl
    | some v => simp [hkf]
  · rw [lookup_append_keyed]
    cases hm : m.lookup k with
    | none => simp [List.lookup_cons, hkf]
    | some v => simp

theorem pass1_lookup (ns : List KnowledgeNode)
    (m : List (String × KnowledgeNode × List String)) (k : String) :
    (((ns.foldl (fun m n => setEntry m n) m)).lookup k).map (fun v => v.2) =
      if k ∈ ns.map (fun n => n.id) then some []
      else (m.lookup k).map (fun v => v.2) := by
  induction ns generalizing m with
  | nil => simp
  | cons n ns ih =>
      rw [List.foldl_cons, ih]
      by_cases hin : k ∈ ns.map (fun n => n.id)
      · rw [if_pos hin, if_pos (by simp [hin])]
      · rw [if_neg hin]
        by_cases hkn : k = n.id
        · subst hkn
          rw [lookup_setEntry_self, if_pos (by simp)]
          rfl
        · rw [lookup_setEntry_ne m n k hkn, if_neg (by simp [hkn, hin])]

theorem pass2Step_none (m : List (String × KnowledgeNode × List String))
    (n : KnowledgeNode) (hp : n.parentId = none) : pass2Step m n = m := by
  unfold pass2Step
  rw [hp]

theorem pass2Step_some (m : List (String × KnowledgeNode × List String))
    (n : KnowledgeNode) (p : String) (hp : n.parentId = some p) :
    pass2Step m n = if (m.lookup p).isSome then pushChild m p n.id else m := by
  unfold pass2Step
  rw [hp]

theorem pass2_lookup (ns : List KnowledgeNode)
    (m : List (String × KnowledgeNode × List String)) (k : String) :
    ((ns.foldl pass2Step m).lookup k).map (fun v => v.2) =
      (m.lookup k).map (fun v =>
        v.2 ++ (ns.filter fun n => n.parentId == some k).map (fun n => n.id)) := by
  induction ns generalizing m with
  | nil =>
      rw [List.foldl_nil, List.filter_nil, List.map_nil]
      cases m.lookup k <;> simp
  | cons n ns ih =>
      rw [List.foldl_cons, List.filter_cons, ih]
      cases hp : n.parentId with
      | none =>
          rw [pass2Step_none m n hp]
          simp only [show ((none : Option String) == some k) = false from rfl,
            Bool.false_eq_true, if_false]
      | some p =>
          rw [pass2Step_some m n p hp]
          by_cases hpk : p = k
          · subst hpk
            simp only [show ((some p : Option String) == some p) = true from by simp, if_true]
            by_cases hg : ((m.lookup p).isSome)
            · rw [if_pos hg, lookup_pushChild]
              cases hm : m.lookup p with
              | none => rw [hm] at hg; simp at hg
              | some v => simp
            · rw [if_neg hg]
              cases hm : m.lookup p with
              | none => rfl
              | some v => rw [hm] at hg; simp at hg
          · have hf : ((some p : Option String) == some k) = false := by simpa using hpk
            simp only [hf, Bool.false_eq_true, if_false]
            by_cases hg : ((m.lookup p).isSome)
            · rw [if_pos hg, lookup_pushChild]
              have hkp : (k == p) = false := by
                rw [beq_eq_false_iff_ne]
                intro hc
                exact hpk hc.symm
              cases hm : m.lookup k with
              | none => rfl
              | some v => simp [hkp]
            · rw [if_neg hg]

theorem buildEntries_children (ns : List KnowledgeNode) (k : String) :
    ((buildEntries ns).lookup k).map (fun v => v.2) =
      if k ∈ ns.map (fun n => n.id) then
        some ((ns.filter fun n => n.parentId == some k).map fun n => n.id)
      else none := by
  unfold buildEntries
  rw [pass2_lookup]
  have h1 := pass1_lookup ns [] k
  rw [List.lookup_nil] at h1
  by_cases hin : k ∈ ns.map (fun n => n.id)
  · rw [if_pos hin] at h1 ⊢
    cases hm : (ns.foldl (fun m n => setEntry m n) []).lookup k with
    | none => rw [hm] at h1; simp at h1
    | some v =>
        rw [hm] at h1
        have hv : v.2 = [] := by simpa using h1
        simp [hv]
  · rw [if_neg hin] at h1 ⊢
    cases hm : (ns.foldl (fun m n => setEntry m n) []).lookup k with
    | none => rfl
    | some v => rw [hm] at h1; simp at h1

/-- C8: the root set of the Tree Builder is exactly the nodes with no
parentId or a parentId matching no id of the input list, in input order;
and in a store with unique ids, every non-root node appears in the child
list of its parent entry exactly once, the child list being the ids of the
children in input order. -/
theorem tree_builder_roots_and_children :
    (∀ ns : List KnowledgeNode, treeRoots ns = specRoots ns) ∧
    (∀ ns : List KnowledgeNode, (ns.map fun n => n.id).Nodup →
      ∀ n ∈ ns, ∀ p, n.parentId = some p → p ∈ ns.map (fun x => x.id) →
        ((buildEntries ns).lookup p).map (fun v => v.2) =
          some ((ns.filter fun x => x.parentId == some p).map fun x => x.id) ∧
        ((ns.filter fun x => x.parentId == some p).map fun x => x.id).count n.id = 1) := by
  constructor
  · intro ns
    unfold treeRoots specRoots
    apply List.filter_congr
    intro n hn
    cases hp : n.parentId with
    | none => rfl
    | some p =>
        show ((buildEntries ns).lookup p).isNone = !((ns.map fun x => x.id).contains p)
        have hch := buildEntries_children ns p
        by_cases hin : p ∈ ns.map (fun x => x.id)
        · rw [if_pos hin] at hch
          cases hm : (buildEntries ns).lookup p with
          | none => rw [hm] at hch; simp at hch
          | some v =>
              have hcont : ((ns.map fun x => x.id).contains p) = true := by simpa using hin
              rw [hcont]
              rfl
        · rw [if_neg hin] at hch
          cases hm : (buildEntries ns).lookup p with
          | none =>
              have hcont : ((ns.map fun x => x.id).contains p) = false := by simpa using hin
              rw [hcont]
              rfl
          | some v => rw [hm] at hch; simp at hch
  · intro ns hnd n hn p hp hin
    refine ⟨by rw [buildEntries_children, if_pos hin], ?_⟩
    have hmemf : n ∈ ns.filter fun x => x.parentId == some p := by
      rw [List.mem_filter]
      exact ⟨hn, by rw [hp]; simp⟩
    have hmem : n.id ∈ (ns.filter fun x => x.parentId == some p).map fun x => x.id :=
      List.mem_map.mpr ⟨n, hmemf, rfl⟩
    have hpos : 0 < ((ns.filter fun x => x.parentId == some p).map fun x => x.id).count n.id :=
      List.count_pos_iff.mpr hmem
    have hsub : ((ns.filter fun x => x.parentId == some p).map fun x => x.id).Sublist
        (ns.map fun x => x.id) := (List.filter_sublist _).map _
    have hle : ((ns.filter fun x => x.parentId == some p).map fun x => x.id).count n.id ≤
        (ns.map fun x => x.id).count n.id := hsub.count_le _
    have hone : (ns.map fun x => x.id).count n.id ≤ 1 :=
      List.nodup_iff_count_le_one.mp hnd n.id
    omega

/-- Three-node store for the C8 witness: a root and two leaves below it. -/
def exC8 : List KnowledgeNode :=
  [{ id := "r", status := NodeStatus.COMPLETED, type := NodeType.root },
   { id := "a", status := NodeStatus.AVAILABLE, parentId := some "r" },
   { id := "b", status := NodeStatus.LOCKED, parentId := some "r" }]

/-- Witness for tree_builder_roots_and_children on the three-node store:
the root set and the child list of r, in which a appears exactly once. -/
theorem tree_builder_roots_and_children_witness :
    treeRoots exC8 = specRoots exC8 ∧
    (((buildEntries exC8).lookup "r").map (fun v => v.2) =
      some ((exC8.filter fun x => x.parentId == some "r").map fun x => x.id) ∧
    ((exC8.filter fun x => x.parentId == some "r").map fun x => x.id).count
      (KnowledgeNode.id { id := "a", status := NodeStatus.AVAILABLE, parentId := some "r" }) = 1) :=
  ⟨tree_builder_roots_and_children.1 exC8,
   tree_builder_roots_and_children.2 exC8 (by decide)
     { id := "a", status := NodeStatus.AVAILABLE, parentId := some "r" } (by decide)
     "r" (by decide) (by decide)⟩

/-- Tree shape produced by unfolding the Tree Builder map from the roots,
as renderNode traverses it (part_000 lines 39-122): payload of a node plus
its ordered children subtrees. -/
inductive RTree where
  | node (id : String) (status : NodeStatus) (stars : Nat) (children : List RTree)

def RTree.rootId : RTree → String
  | .node i _ _ _ => i

mutual
/-- All ids of a tree. -/
def RTree.ids : RTree → List String
  | .node i _ _ cs => i :: idsList cs

/-- All ids of a forest. -/
def idsList : List RTree → List String
  | [] => []
  | t :: ts => t.ids ++ idsList ts
end

mutual
def RTree.size : RTree → Nat
  | .node _ _ _ cs => 1 + sizeList cs

def sizeList : List RTree → Nat
  | [] => 0
  | t :: ts => t.size + sizeList ts
end

mutual
/-- Ids rendered by renderNode (part_000 lines 39-122): the node itself is
always shown; its children are rendered only when the node is not in the
collapsed set. -/
def renderedT (collapsed : List String) : RTree → List String
  | .node i _ _ cs => i :: (if i ∈ collapsed then [] else renderedList collapsed cs)

/-- Ids rendered for a forest of subtrees. -/
def renderedList (collapsed : List String) : List RTree → List String
  | [] => []
  | t :: ts => renderedT collapsed t ++ renderedList collapsed ts
end

mutual
/-- All subtrees of a tree, itself included. -/
def subtreesT : RTree → List RTree
  | .node i s st cs => .node i s st cs :: subtreesList cs

/-- All subtrees of the trees of a forest. -/
def subtreesList : List RTree → List RTree
  | [] => []
  | t :: ts => subtreesT t ++ subtreesList ts
end

/-- Ids of the strict descendants of a tree: everything below its root. -/
def strictDescIds : RTree → List String
  | .node _ _ _ cs => idsList cs

theorem size_node (i : String) (s : NodeStatus) (st : Nat) (cs : List RTree) :
    (RTree.node i s st cs).size = 1 + sizeList cs := by simp [RTree.size]

theorem sizeList_cons (t : RTree) (ts : List RTree) :
    sizeList (t :: ts) = t.size + sizeList ts := by simp [sizeList]

theorem size_pos (t : RTree) : 0 < t.size := by
  cases t with
  | node i s st cs => rw [size_node]; omega

theorem ids_node (i : String) (s : NodeStatus) (st : Nat) (cs : List RTree) :
    (RTree.node i s st cs).ids = i :: idsList cs := by simp [RTree.ids]

theorem idsList_cons (t : RTree) (ts : List RTree) :
    idsList (t :: ts) = t.ids ++ idsList ts := by simp [idsList]

theorem renderedT_node (C : List String) (i : String) (s : NodeStatus) (st : Nat)
    (cs : List RTree) :
    renderedT C (RTree.node i s st cs) =
      i :: (if i ∈ C then [] else renderedList C cs) := by simp [renderedT]

theorem renderedList_cons (C : List String) (t : RTree) (ts : List RTree) :
    renderedList C (t :: ts) = renderedT C t ++ renderedList C ts := by simp [renderedList]

theorem subtreesT_node (i : String) (s : NodeStatus) (st : Nat) (cs : List RTree) :
    subtreesT (RTree.node i s st cs) =
      RTree.node i s st cs :: subtreesList cs := by simp [subtreesT]

theorem subtreesList_cons (t : RTree) (ts : List RTree) :
    subtreesList (t :: ts) = subtreesT t ++ subtreesList ts := by simp [subtreesList]

/-- Rendered ids are ids of the tree (joint tree and forest statement,
by induction on size). -/
theorem rendered_subset_ids (C : List String) : ∀ n : Nat,
    (∀ t : RTree, t.size ≤ n → ∀ x ∈ renderedT C t, x ∈ t.ids) ∧
    (∀ ts : List RTree, sizeList ts ≤ n → ∀ x ∈ renderedList C ts, x ∈ idsList ts) := by
  intro n
  induction n with
  | zero =>
      constructor
      · intro t ht
        have := size_pos t
        omega
      · intro ts hts x hx
        cases ts with
        | nil => simp [renderedList] at hx
        | cons t ts =>
            rw [sizeList_cons] at hts
            have := size_pos t
            omega
  | succ n ih =>
      have hP : ∀ t : RTree, t.size ≤ n + 1 → ∀ x ∈ renderedT C t, x ∈ t.ids := by
        intro t ht x hx
        cases t with
        | node i s st cs =>
            rw [size_node] at ht
            rw [renderedT_node] at hx
            rw [ids_node]
            rcases List.mem_cons.mp hx with h | h
            · exact List.mem_cons.mpr (Or.inl h)
            · by_cases hc : i ∈ C
              · rw [if_pos hc] at h
                cases h
              · rw [if_neg hc] at h
                exact List.mem_cons.mpr (Or.inr (ih.2 cs (by omega) x h))
      refine ⟨hP, ?_⟩
      intro ts hts x hx
      cases ts with
      | nil => simp [renderedList] at hx
      | cons t ts =>
          rw [sizeList_cons] at hts
          rw [renderedList_cons] at hx
          rw [idsList_cons]
          have hst := size_pos t
          rcases List.mem_append.mp hx with h | h
          · exact List.mem_append.mpr (Or.inl (hP t (by omega) x h))
          · exact List.mem_append.mpr (Or.inr (ih.2 ts (by omega) x h))

/-- Ids of a subtree are ids of the tree (joint statement, by induction on
size). -/
theorem subtree_ids_subset : ∀ n : Nat,
    (∀ t : RTree, t.size ≤ n → ∀ s ∈ subtreesT t, ∀ x ∈ s.ids, x ∈ t.ids) ∧
    (∀ ts : List RTree, sizeList ts ≤ n → ∀ s ∈ subtreesList ts, ∀ x ∈ s.ids, x ∈ idsList ts) := by
  intro n
  induction n with
  | zero =>
      constructor
      · intro t ht
        have := size_pos t
        omega
      · intro ts hts s hs x hx
        cases ts with
        | nil => simp [subtreesList] at hs
        | cons t ts =>
            rw [sizeList_cons] at hts
            have := size_pos t
            omega
  | succ n ih =>
      have hP : ∀ t : RTree, t.size ≤ n + 1 → ∀ s ∈ subtreesT t, ∀ x ∈ s.ids, x ∈ t.ids := by
        intro t ht s hs x hx
        cases t with
        | node i st sf cs =>
            rw [size_node] at ht
            rw [subtreesT_node] at hs
            rw [ids_node]
            rcases List.mem_cons.mp hs with h | h
            · subst h
              exact hx
            · exact List.mem_cons.mpr (Or.inr (ih.2 cs (by omega) s h x hx))
      refine ⟨hP, ?_⟩
      intro ts hts s hs x hx
      cases ts with
      | nil => simp [subtreesList] at hs
      | cons t ts =>
          rw [sizeList_cons] at hts
          rw [subtreesList_cons] at hs
          rw [idsList_cons]
          have hst := size_pos t
          rcases List.mem_append.mp hs with h | h
          · exact List.mem_append.mpr (Or.inl (hP t (by omega) s h x hx))
          · exact List.mem_append.mpr (Or.inr (ih.2 ts (by omega) s h x hx))

theorem strictDescIds_subset_ids (s : RTree) : ∀ x ∈ strictDescIds s, x ∈ s.ids := by
  cases s with
  | node i st sf cs =>
      intro x hx
      rw [ids_node]
      rw [show strictDescIds (RTree.node i st sf cs) = idsList cs from by
        simp [strictDescIds]] at hx
      exact List.mem_cons.mpr (Or.inr hx)

/-- Collapsing hides the whole descendant subtree (joint statement, by
induction on size): if a subtree root is in the collapsed set and ids are
unique, none of its strict descendants is rendered. -/
theorem collapsed_hides_descendants (C : List String) : ∀ n : Nat,
    (∀ t : RTree, t.size ≤ n → t.ids.Nodup →
      ∀ s ∈ subtreesT t, s.rootId ∈ C → ∀ d ∈ strictDescIds s, d ∉ renderedT C t) ∧
    (∀ ts : List RTree, sizeList ts ≤ n → (idsList ts).Nodup →
      ∀ s ∈ subtreesList ts, s.rootId ∈ C → ∀ d ∈ strictDescIds s, d ∉ renderedList C ts) := by
  intro n
  induction n with
  | zero =>
      constructor
      · intro t ht
        have := size_pos t
        omega
      · intro ts hts hnd s hs
        cases ts with
        | nil => simp [subtreesList] at hs
        | cons t ts =>
            rw [sizeList_cons] at hts
            have := size_pos t
            omega
  | succ n ih =>
      have hP : ∀ t : RTree, t.size ≤ n + 1 → t.ids.Nodup →
          ∀ s ∈ subtreesT t, s.rootId ∈ C → ∀ d ∈ strictDescIds s, d ∉ renderedT C t := by
        intro t ht hnd s hs hroot d hd
        cases t with
        | node i st sf cs =>
            rw [size_node] at ht
            rw [ids_node, List.nodup_cons] at hnd
            rw [subtreesT_node] at hs
            rw [renderedT_node]
            rcases List.mem_cons.mp hs with h | h
            · subst h
              have hdi : d ∈ idsList cs := by
                rw [show strictDescIds (RTree.node i st sf cs) = idsList cs from by
                  simp [strictDescIds]] at hd
                exact hd
              have hroot2 : i ∈ C := hroot
              rw [if_pos hroot2]
              intro hmem
              rcases List.mem_cons.mp hmem with h2 | h2
              · subst h2
                exact hnd.1 hdi
              · cases h2
            · have hdcs : d ∈ idsList cs := by
                have hsids : d ∈ s.ids := strictDescIds_subset_ids s d hd
                exact (subtree_ids_subset n).2 cs (by omega) s h d hsids
              intro hmem
              rcases List.mem_cons.mp hmem with h2 | h2
              · subst h2
                exact hnd.1 hdcs
              · by_cases hc : i ∈ C
                · rw [if_pos hc] at h2
                  cases h2
                · rw [if_neg hc] at h2
                  exact ih.2 cs (by omega) hnd.2 s h hroot d hd h2
      refine ⟨hP, ?_⟩
      intro ts hts hnd s hs hroot d hd
      cases ts with
      | nil => simp [subtreesList] at hs
      | cons t ts =>
          rw [sizeList_cons] at hts
          rw [idsList_cons, List.nodup_append] at hnd
          rw [subtreesList_cons] at hs
          rw [renderedList_cons]
          have hst := size_pos t
          intro hmem
          rcases List.mem_append.mp hmem with h2 | h2
          · -- rendered inside the head tree
            have hdt : d ∈ t.ids :=
              (rendered_subset_ids C (n + 1)).1 t (by omega) d h2
            rcases List.mem_append.mp hs with h | h
            · exact hP t (by omega) hnd.1 s h hroot d hd h2
            · have hdts : d ∈ idsList ts := by
                have hsids : d ∈ s.ids := strictDescIds_subset_ids s d hd
                exact (subtree_ids_subset n).2 ts (by omega) s h d hsids
              exact hnd.2.2 hdt hdts
          · -- rendered inside the tail forest
            have hdts2 : d ∈ idsList ts :=
              (rendered_subset_ids C n).2 ts (by omega) d h2
            rcases List.mem_append.mp hs with h | h
            · have hdt : d ∈ t.ids := by
                have hsids : d ∈ s.ids := strictDescIds_subset_ids s d hd
                exact (subtree_ids_subset (n + 1)).1 t (by omega) s h d hsids
              exact hnd.2.2 hdt hdts2
            · exact ih.2 ts (by omega) hnd.2.1 s h hroot d hd h2


/-- Connector pairs (child id, parent id) computed by updateLines
(part_001 lines 44-83).  The DOM measurability of an endpoint
(offsetParent !== null) is abstracted by the visible predicate; a connector
is produced only when both endpoints are visible, and the Bezier geometry,
a function of the measured on-screen positions, is not modelled. -/
def connectors (nodes : List KnowledgeNode) (visible : String → Bool) :
    List (String × String) :=
  nodes.filterMap fun n =>
    match n.parentId with
    | none => none
    | some p => if visible n.id && visible p then some (n.id, p) else none

/-- Collapse toggle of part_000 lines 29-37 and part_001 lines 103-111:
flip the membership of the id in the collapsed set. -/
def toggleCollapse (collapsed : List String) (id : String) : List String :=
  if id ∈ collapsed then collapsed.erase id else collapsed ++ [id]

/-- View state of KnowledgeGraph: the node list and the collapsed set. -/
structure GraphView where
  nodes : List KnowledgeNode
  collapsed : List String

/-- The collapse toggle writes only the collapsed set (part_000 lines
29-37: setCollapsedNodes is the only state update). -/
def toggleCollapseView (g : GraphView) (id : String) : GraphView :=
  { g with collapsed := toggleCollapse g.collapsed id }

/-- C9: collapsing node X hides all of the transitive descendants of X
from the rendered set, for every forest with unique ids and every
collapsed set; every connector with a non-visible endpoint is omitted by
updateLines; and the collapse toggle writes only the collapsed set (never
any node status or stars), while toggling X again restores the collapsed
set, hence the rendered set. -/
theorem collapse_hides_descendants_and_connectors :
    (∀ (forest : List RTree) (C : List String) (X : String) (s : RTree),
      (idsList forest).Nodup → s ∈ subtreesList forest → s.rootId = X → X ∈ C →
      ∀ d ∈ strictDescIds s, d ∉ renderedList C forest) ∧
    (∀ (ns : List KnowledgeNode) (visible : String → Bool) (e : String × String),
      e ∈ connectors ns visible → visible e.1 = true ∧ visible e.2 = true) ∧
    (∀ (g : GraphView) (X Y : String), X ∉ g.collapsed →
      (toggleCollapseView (toggleCollapseView g X) X).collapsed = g.collapsed ∧
      (toggleCollapseView g Y).nodes = g.nodes) := by
  refine ⟨?_, ?_, ?_⟩
  · intro forest C X s hnd hs hroot hX d hd
    exact (collapsed_hides_descendants C (sizeList forest)).2 forest (le_refl _) hnd s hs
      (by rw [hroot]; exact hX) d hd
  · intro ns visible e he
    unfold connectors at he
    rw [List.mem_filterMap] at he
    obtain ⟨a, ha, hfa⟩ := he
    cases hp : a.parentId with
    | none =>
        rw [hp] at hfa
        simp at hfa
    | some p =>
        rw [hp] at hfa
        have hfa2 : (if visible a.id && visible p then some (a.id, p) else none) =
            some e := hfa
        by_cases hv : (visible a.id && visible p) = true
        · rw [if_pos hv] at hfa2
          cases hfa2
          rw [Bool.and_eq_true] at hv
          exact ⟨hv.1, hv.2⟩
        · rw [if_neg hv] at hfa2
          cases hfa2
  · intro g X Y hX
    constructor
    · show toggleCollapse (toggleCollapse g.collapsed X) X = g.collapsed
      unfold toggleCollapse
      rw [if_neg hX]
      have hXmem : X ∈ g.collapsed ++ [X] :=
        List.mem_append.mpr (Or.inr (List.mem_singleton.mpr rfl))
      rw [if_pos hXmem, List.erase_append_right _ hX, List.erase_cons_head,
        List.append_nil]
    · rfl

def exC9sub : RTree :=
  RTree.node "x" NodeStatus.AVAILABLE 0 [RTree.node "d" NodeStatus.LOCKED 0 []]

def exC9forest : List RTree := [exC9sub]

def exC9ns : List KnowledgeNode :=
  [{ id := "r", status := NodeStatus.COMPLETED },
   { id := "a", status := NodeStatus.AVAILABLE, parentId := some "r" }]

/-- Witness for collapse_hides_descendants_and_connectors: collapsing x
hides its child d; the connector from a to r has visible endpoints; and
toggling x twice on an empty collapsed set restores it without touching
the nodes. -/
theorem collapse_hides_descendants_and_connectors_witness :
    ("d" ∉ renderedList ["x"] exC9forest) ∧
    ((fun _ => true) "a" = true ∧ (fun _ => true) "r" = true) ∧
    ((toggleCollapseView (toggleCollapseView ⟨exC9ns, []⟩ "x") "x").collapsed =
        ([] : List String) ∧
      (toggleCollapseView (⟨exC9ns, []⟩ : GraphView) "y").nodes = exC9ns) :=
  ⟨collapse_hides_descendants_and_connectors.1 exC9forest ["x"] "x" exC9sub
      (by decide)
      (by rw [show subtreesList exC9forest =
            [exC9sub, RTree.node "d" NodeStatus.LOCKED 0 []] from rfl]
          exact List.mem_cons_self _ _)
      rfl (by decide) "d"
      (by rw [show strictDescIds exC9sub = ["d"] from rfl]
          exact List.mem_singleton.mpr rfl),
   collapse_hides_descendants_and_connectors.2.1 exC9ns (fun _ => true) ("a", "r")
      (by rw [show connectors exC9ns (fun _ => true) = [("a", "r")] from rfl]
          exact List.mem_singleton.mpr rfl),
   collapse_hides_descendants_and_connectors.2.2 ⟨exC9ns, []⟩ "x" "y" (by decide)⟩


end KnowledgeFlow
